import Mathlib

/-!
Verification of the console-stream interception and deferred log-shipping
mechanism of `src/meta/bameta/python_embedded/bootstrap.py`
(class `_BAConsoleRedirect`).

Strings are embedded as `List Char`, matching Python string semantics for the
operations the code uses: `endswith('\n')` inspects the last character,
`line[:-1]` drops the last character, and `''.join` concatenates.  Side
effects (the passthrough callback `self._call`, the buffer append, the
deferred scheduling via `_ba.pushcall`, and the log-sink call `_ba.log`) are
recorded in an ordered event trace carried in the state.
-/

abbrev Str := List Char

/-- Embeds Python `s.endswith('\n')`: true iff the last character is a newline. -/
def endsWithNL (s : Str) : Bool := s.getLast? = some '\n'

/-- Embeds Python `''.join(linebits)`. -/
def joinBits (l : List Str) : Str := l.flatten

/-- Embeds `if line.endswith('\n'): line = line[:-1]` from `_shiplog`. -/
def stripNL (line : Str) : Str := if endsWithNL line then line.dropLast else line

/-- One observable side effect of the redirect object. -/
inductive Event where
  | pass (v : Str)
  | buffered (v : Str)
  | sink (line : Str) (to_stdout : Bool)
  | sched
deriving DecidableEq

/-- The underlying real stream (`self._original`): its terminal-ness and a
counter of how many `flush` calls have been forwarded to it. -/
structure Original where
  isattyVal : Bool
  flushCount : Nat
deriving DecidableEq

/-- State of one `_BAConsoleRedirect` instance.  `linebits` is
`self._linebits`, `pending_ship` is `self._pending_ship`, `scheduled` counts
the `_shiplog` calls pushed via `_ba.pushcall` that have not yet run, and
`events` is the ordered trace of observable side effects. -/
structure RState where
  linebits : List Str
  pending_ship : Bool
  scheduled : Nat
  orig : Original
  events : List Event
deriving DecidableEq

/-- The state `__init__` produces (for a non-tty original stream). -/
def initState : RState :=
  { linebits := [], pending_ship := false, scheduled := 0,
    orig := { isattyVal := false, flushCount := 0 }, events := [] }

namespace BAConsoleRedirect

/-- Embeds `_BAConsoleRedirect._shiplog`: under the lock, join the accumulated
fragments; if the joined string is empty, return; otherwise clear the
fragment list.  Outside the lock, strip a single trailing newline and call
`_ba.log(line, to_stdout=False)`. -/
def shiplog (s : RState) : RState :=
  let line := joinBits s.linebits
  if line = [] then s
  else
    { s with linebits := [],
             events := s.events ++ [Event.sink (stripNL line) false] }

/-- Embeds `_BAConsoleRedirect.write` for string input: call the passthrough
(`self._call(sval)`), append `sval` to `self._linebits` under the lock, then
either ship synchronously (when `sval` ends in a newline) or push a deferred
`_shiplog` call via `_ba.pushcall`. -/
def write (sval : Str) (s : RState) : RState :=
  let s1 := { s with events := s.events ++ [Event.pass sval] }
  let s2 := { s1 with linebits := s1.linebits ++ [sval],
                      events := s1.events ++ [Event.buffered sval] }
  if endsWithNL sval then shiplog s2
  else { s2 with scheduled := s2.scheduled + 1,
                 events := s2.events ++ [Event.sched] }

/-- Embeds `_BAConsoleRedirect.flush`: delegate to `self._original.flush()`. -/
def flush (s : RState) : RState :=
  { s with orig := { s.orig with flushCount := s.orig.flushCount + 1 } }

/-- Embeds `_BAConsoleRedirect.isatty`: delegate to `self._original.isatty()`. -/
def isatty (s : RState) : Bool := s.orig.isattyVal

end BAConsoleRedirect

/-- Execute a sequence of `write` calls in order, no deferred flush running
in between (the owner thread has not yet caught up). -/
def runWrites (ws : List Str) (s : RState) : RState :=
  ws.foldl (fun t v => BAConsoleRedirect.write v t) s

/-- The log-sink calls recorded in a state's trace, in order. -/
def sinkCalls (s : RState) : List (Str × Bool) :=
  s.events.filterMap (fun e =>
    match e with
    | Event.sink l b => some (l, b)
    | _ => none)

/-- The passthrough calls recorded in a state's trace, in order. -/
def passCalls (s : RState) : List Str :=
  s.events.filterMap (fun e =>
    match e with
    | Event.pass v => some v
    | _ => none)

/-- One operation on the redirect object: a `write`, a run of `_shiplog`
(synchronous or a deferred one executing on the owner thread), or a `flush`. -/
inductive Op where
  | write (v : Str)
  | ship
  | flushOp
deriving DecidableEq

def applyOp (s : RState) : Op → RState
  | Op.write v => BAConsoleRedirect.write v s
  | Op.ship => BAConsoleRedirect.shiplog s
  | Op.flushOp => BAConsoleRedirect.flush s

/-- Run an arbitrary operation sequence from the initial state. -/
def run (ops : List Op) : RState := ops.foldl applyOp initState

/-- Modelled from the spec (claim side, for refinement comparison): the
terminator-delimited segments of a string, each with its trailing terminator
stripped; an unterminated tail contributes no segment. -/
def segsAux (cur : Str) : Str → List Str
  | [] => []
  | c :: rest => if c = '\n' then cur :: segsAux [] rest else segsAux (cur ++ [c]) rest

/-- Modelled from the spec (claim side): `claimSegments s` is the list of
terminator-delimited segments of `s`, trailing terminator stripped. -/
def claimSegments (s : Str) : List Str := segsAux [] s

/-- Group a write sequence into the batches the code actually ships: each
batch ends at a write ending in a newline; `cur` is the buffer carried in. -/
def blocksAux (cur : List Str) : List Str → List (List Str)
  | [] => []
  | w :: rest =>
      if endsWithNL w then (cur ++ [w]) :: blocksAux [] rest
      else blocksAux (cur ++ [w]) rest

def blocks (ws : List Str) : List (List Str) := blocksAux [] ws

/-- The fragments still buffered after a write sequence: those written after
the last newline-ending write. -/
def leftoverAux (cur : List Str) : List Str → List Str
  | [] => cur
  | w :: rest =>
      if endsWithNL w then leftoverAux [] rest
      else leftoverAux (cur ++ [w]) rest

/-!
A second, value-level model of `write` for the dynamic-typing behavior:
`write(sval)` with `sval: Any` passes the raw value to the passthrough
callback and appends it to `self._linebits` before evaluating
`sval.endswith('\n')`, which raises on a value without an `endswith`
method.  The error then propagates with those mutations already applied.
-/

/-- A Python value handed to `write`: a string, or some other object
(lacking an `endswith` method), distinguished by an opaque tag. -/
inductive PyVal where
  | str (s : Str)
  | other (tag : Nat)
deriving DecidableEq

/-- Whether the value has an `endswith` method (only strings do here). -/
def hasEndswith : PyVal → Bool
  | PyVal.str _ => true
  | PyVal.other _ => false

/-- State of the redirect in the value-level model: the buffer may hold
arbitrary values, and the passthrough / sink calls are recorded directly. -/
structure AState where
  linebits : List PyVal
  passed : List PyVal
  scheduled : Nat
  sinkCalls : List (Str × Bool)
deriving DecidableEq

def initAState : AState :=
  { linebits := [], passed := [], scheduled := 0, sinkCalls := [] }

/-- Embeds `''.join(self._linebits)` over arbitrary buffered values: `none`
models the TypeError raised when a non-string is in the list. -/
def joinAny : List PyVal → Option Str
  | [] => some []
  | PyVal.str v :: rest => (joinAny rest).map (fun r => v ++ r)
  | PyVal.other _ :: _ => none

/-- Embeds `_shiplog` in the value-level model; an error carries the state
at the point the exception is raised. -/
def shiplogAny (s : AState) : Except AState AState :=
  match joinAny s.linebits with
  | none => Except.error s
  | some line =>
      if line = [] then Except.ok s
      else Except.ok { s with linebits := [],
                              sinkCalls := s.sinkCalls ++ [(stripNL line, false)] }

/-- Embeds `_BAConsoleRedirect.write` for an arbitrary value: the
passthrough call and the buffer append happen first; the match on `sval`
embeds the `sval.endswith('\n')` attribute lookup, which raises
AttributeError on a non-string, propagating with the mutations applied. -/
def writeAny (sval : PyVal) (s : AState) : Except AState AState :=
  let s1 := { s with passed := s.passed ++ [sval] }
  let s2 := { s1 with linebits := s1.linebits ++ [sval] }
  match sval with
  | PyVal.str v =>
      if endsWithNL v then shiplogAny s2
      else Except.ok { s2 with scheduled := s2.scheduled + 1 }
  | PyVal.other _ => Except.error s2

theorem endsWithNL_ne_nil {v : Str} (h : endsWithNL v = true) : v ≠ [] := by
  intro hv
  subst hv
  simp [endsWithNL] at h

theorem joinBits_append (l : List Str) (v : Str) :
    joinBits (l ++ [v]) = joinBits l ++ v := by
  simp [joinBits]

theorem shiplog_of_join_nil {s : RState} (h : joinBits s.linebits = []) :
    BAConsoleRedirect.shiplog s = s := by
  simp [BAConsoleRedirect.shiplog, h]

theorem shiplog_of_join_ne {s : RState} (h : joinBits s.linebits ≠ []) :
    BAConsoleRedirect.shiplog s =
      { s with linebits := [],
               events := s.events ++
                 [Event.sink (stripNL (joinBits s.linebits)) false] } := by
  simp [BAConsoleRedirect.shiplog, h]

theorem write_of_nl {v : Str} (h : endsWithNL v = true) (s : RState) :
    BAConsoleRedirect.write v s =
      { s with linebits := [],
               events := s.events ++ [Event.pass v, Event.buffered v,
                 Event.sink (stripNL (joinBits s.linebits ++ v)) false] } := by
  have hv : v ≠ [] := endsWithNL_ne_nil h
  have hj : joinBits (s.linebits ++ [v]) ≠ [] := by
    rw [joinBits_append]
    simp [hv]
  simp [BAConsoleRedirect.write, h, BAConsoleRedirect.shiplog, hj,
    joinBits_append, hv]

theorem write_of_not {v : Str} (h : endsWithNL v = false) (s : RState) :
    BAConsoleRedirect.write v s =
      { s with linebits := s.linebits ++ [v],
               scheduled := s.scheduled + 1,
               events := s.events ++ [Event.pass v, Event.buffered v,
                 Event.sched] } := by
  simp [BAConsoleRedirect.write, h]

theorem sinkCalls_write (v : Str) (s : RState) :
    sinkCalls (BAConsoleRedirect.write v s) =
      sinkCalls s ++
        (if endsWithNL v then
          [(stripNL (joinBits s.linebits ++ v), false)] else []) := by
  cases h : endsWithNL v with
  | true => rw [write_of_nl h]; simp [sinkCalls]
  | false => rw [write_of_not h]; simp [sinkCalls]

theorem passCalls_write (v : Str) (s : RState) :
    passCalls (BAConsoleRedirect.write v s) = passCalls s ++ [v] := by
  cases h : endsWithNL v with
  | true => rw [write_of_nl h]; simp [passCalls]
  | false => rw [write_of_not h]; simp [passCalls]

theorem runWrites_nil (s : RState) : runWrites [] s = s := rfl

theorem runWrites_cons (w : Str) (ws : List Str) (s : RState) :
    runWrites (w :: ws) s = runWrites ws (BAConsoleRedirect.write w s) := rfl

theorem runWrites_linebits (ws : List Str) :
    ∀ s : RState, (runWrites ws s).linebits = leftoverAux s.linebits ws := by
  induction ws with
  | nil => intro s; rfl
  | cons w rest ih =>
      intro s
      rw [runWrites_cons, ih]
      cases h : endsWithNL w with
      | true => rw [write_of_nl h]; simp [leftoverAux, h]
      | false => rw [write_of_not h]; simp [leftoverAux, h]

theorem runWrites_sinkCalls (ws : List Str) :
    ∀ s : RState,
      sinkCalls (runWrites ws s) =
        sinkCalls s ++
          (blocksAux s.linebits ws).map
            (fun b => (stripNL (joinBits b), false)) := by
  induction ws with
  | nil => intro s; rw [runWrites_nil]; simp [blocksAux]
  | cons w rest ih =>
      intro s
      rw [runWrites_cons, ih, sinkCalls_write]
      cases h : endsWithNL w with
      | true =>
          rw [write_of_nl h]
          simp [blocksAux, h, joinBits_append]
      | false =>
          rw [write_of_not h]
          simp [blocksAux, h]

theorem runWrites_scheduled (ws : List Str) :
    ∀ s : RState,
      (runWrites ws s).scheduled =
        s.scheduled + ws.countP (fun w => !endsWithNL w) := by
  induction ws with
  | nil => intro s; simp [runWrites_nil]
  | cons w rest ih =>
      intro s
      rw [runWrites_cons, ih]
      cases h : endsWithNL w with
      | true =>
          rw [write_of_nl h]
          simp [List.countP_cons, h]
      | false =>
          rw [write_of_not h]
          simp [List.countP_cons, h]
          omega

theorem runWrites_pending (ws : List Str) :
    ∀ s : RState, (runWrites ws s).pending_ship = s.pending_ship := by
  induction ws with
  | nil => intro s; rfl
  | cons w rest ih =>
      intro s
      rw [runWrites_cons, ih]
      cases h : endsWithNL w with
      | true => rw [write_of_nl h]
      | false => rw [write_of_not h]

theorem runWrites_passCalls (ws : List Str) :
    ∀ s : RState, passCalls (runWrites ws s) = passCalls s ++ ws := by
  induction ws with
  | nil => intro s; simp [runWrites_nil]
  | cons w rest ih =>
      intro s
      rw [runWrites_cons, ih, passCalls_write]
      simp

theorem joinBits_cons (f : Str) (rest : List Str) :
    joinBits (f :: rest) = f ++ joinBits rest := by
  simp [joinBits]

theorem endsWithNL_append_right {p a : Str} (ha : a ≠ []) :
    endsWithNL (p ++ a) = endsWithNL a := by
  unfold endsWithNL
  rw [List.getLast?_append_of_ne_nil _ ha]

theorem leftoverAux_not_nl (ws : List Str) :
    ∀ cur : List Str, (∀ f ∈ cur, endsWithNL f = false) →
      ∀ f ∈ leftoverAux cur ws, endsWithNL f = false := by
  induction ws with
  | nil => intro cur hcur; simpa [leftoverAux] using hcur
  | cons w rest ih =>
      intro cur hcur
      cases h : endsWithNL w with
      | true =>
          simp only [leftoverAux, h, if_true]
          exact ih [] (by simp)
      | false =>
          simp only [leftoverAux, h, Bool.false_eq_true, if_false]
          apply ih
          intro f hf
          rcases List.mem_append.1 hf with h1 | h1
          · exact hcur f h1
          · simp at h1
            subst h1
            exact h

theorem joinBits_not_nl (l : List Str) (h : ∀ f ∈ l, endsWithNL f = false) :
    endsWithNL (joinBits l) = false := by
  induction l with
  | nil => rfl
  | cons f rest ih =>
      rw [joinBits_cons]
      by_cases hr : joinBits rest = []
      · rw [hr, List.append_nil]
        exact h f (by simp)
      · rw [endsWithNL_append_right hr]
        exact ih (fun g hg => h g (by simp [hg]))

theorem leftoverAux_join (ws : List Str) :
    ∀ cur : List Str, ∃ p : Str,
      joinBits cur ++ joinBits ws = p ++ joinBits (leftoverAux cur ws) := by
  induction ws with
  | nil => intro cur; exact ⟨[], by simp [leftoverAux, joinBits]⟩
  | cons w rest ih =>
      intro cur
      cases h : endsWithNL w with
      | true =>
          obtain ⟨p', hp'⟩ := ih []
          have hp : joinBits rest = p' ++ joinBits (leftoverAux [] rest) := by
            simpa [joinBits] using hp'
          refine ⟨joinBits cur ++ w ++ p', ?_⟩
          simp [leftoverAux, h, joinBits_cons, hp, List.append_assoc]
      | false =>
          obtain ⟨p', hp'⟩ := ih (cur ++ [w])
          refine ⟨p', ?_⟩
          rw [joinBits_append] at hp'
          simp only [leftoverAux, h, Bool.false_eq_true, if_false]
          rw [joinBits_cons, ← List.append_assoc]
          exact hp'

theorem runWrites_join_nil (ws : List Str)
    (h : endsWithNL (joinBits ws) = true) :
    joinBits (runWrites ws initState).linebits = [] := by
  rw [runWrites_linebits]
  simp only [initState]
  obtain ⟨p, hp⟩ := leftoverAux_join ws []
  have hp' : joinBits ws = p ++ joinBits (leftoverAux ([] : List Str) ws) := by
    simpa [joinBits] using hp
  by_contra hne
  have hfrag : ∀ f ∈ leftoverAux ([] : List Str) ws, endsWithNL f = false :=
    leftoverAux_not_nl ws [] (by simp)
  have hnl : endsWithNL (joinBits (leftoverAux ([] : List Str) ws)) = false :=
    joinBits_not_nl _ hfrag
  rw [hp', endsWithNL_append_right hne, hnl] at h
  exact Bool.false_ne_true h

theorem sinkSnd_write {s : RState}
    (hs : ∀ c ∈ sinkCalls s, c.2 = false) (v : Str) :
    ∀ c ∈ sinkCalls (BAConsoleRedirect.write v s), c.2 = false := by
  intro c hc
  rw [sinkCalls_write] at hc
  rcases List.mem_append.1 hc with h1 | h1
  · exact hs c h1
  · cases hnl : endsWithNL v with
    | true =>
        simp [hnl] at h1
        rw [h1]
    | false => simp [hnl] at h1

theorem sinkSnd_ship {s : RState}
    (hs : ∀ c ∈ sinkCalls s, c.2 = false) :
    ∀ c ∈ sinkCalls (BAConsoleRedirect.shiplog s), c.2 = false := by
  intro c hc
  by_cases hj : joinBits s.linebits = []
  · rw [shiplog_of_join_nil hj] at hc
    exact hs c hc
  · rw [shiplog_of_join_ne hj] at hc
    simp only [sinkCalls, List.filterMap_append] at hc
    rcases List.mem_append.1 hc with h1 | h1
    · exact hs c h1
    · simp at h1
      rw [h1]

/-- C1 counterexample: the claim demands one log-sink call per
terminator-delimited segment of the written text, so the single write
`"a\nb\n"` would have to ship the two lines `"a"` and `"b"`; the code
instead ships the whole accumulated buffer as the single line `"a\nb"`,
keeping the interior newline. -/
theorem C1_counterexample :
    sinkCalls (runWrites [['a', '\n', 'b', '\n']] initState) =
        [(['a', '\n', 'b'], false)] ∧
      claimSegments (joinBits [['a', '\n', 'b', '\n']]) = [['a'], ['b']] ∧
      ¬ ((sinkCalls (runWrites [['a', '\n', 'b', '\n']] initState)).map
            Prod.fst =
          claimSegments (joinBits [['a', '\n', 'b', '\n']])) := by
  refine ⟨by decide, by decide, by decide⟩

/-- C1 (amended): for every sequence of writes whose concatenation ends in a
line terminator, the log sink receives exactly one call per
terminator-ending write, in order; each shipped line is the concatenation of
the fragments accumulated since the previous ship with the single trailing
terminator stripped (interior newlines are not split), and afterwards any
still-scheduled flush is a no-op. -/
theorem C1_amended_one_ship_per_terminator_write (ws : List Str)
    (h : endsWithNL (joinBits ws) = true) :
    sinkCalls (runWrites ws initState) =
        (blocks ws).map (fun b => (stripNL (joinBits b), false)) ∧
      BAConsoleRedirect.shiplog (runWrites ws initState) =
        runWrites ws initState := by
  constructor
  · rw [runWrites_sinkCalls]
    simp [initState, sinkCalls, blocks]
  · exact shiplog_of_join_nil (runWrites_join_nil ws h)

theorem C1_amended_witness :
    endsWithNL (joinBits [['x', '\n']]) = true ∧
      sinkCalls (runWrites [['x', '\n']] initState) =
        (blocks [['x', '\n']]).map (fun b => (stripNL (joinBits b), false)) :=
  ⟨by decide,
   (C1_amended_one_ship_per_terminator_write [['x', '\n']] (by decide)).1⟩

/-- C2 counterexample: two rapid partial writes before the owner thread runs
leave TWO pending scheduled flush requests, not at most one, and the
`_pending_ship` flag is still `false` (it was never set when scheduling). -/
theorem C2_counterexample :
    ¬ ((runWrites [['a'], ['b']] initState).scheduled ≤ 1) ∧
      (runWrites [['a'], ['b']] initState).pending_ship = false := by
  refine ⟨by decide, by decide⟩

/-- C2 (amended): the `_pending_ship` flag is initialized to `false` and
thereafter never read, set, or cleared — neither by `write` nor by
`_shiplog`; every write not ending in a terminator unconditionally pushes a
deferred flush request, so n rapid partial writes produce n pending
scheduled flushes rather than one. -/
theorem C2_amended_unconditional_scheduling (ws : List Str) (s : RState) :
    (runWrites ws s).scheduled =
        s.scheduled + ws.countP (fun w => !endsWithNL w) ∧
      (runWrites ws s).pending_ship = s.pending_ship ∧
      (BAConsoleRedirect.shiplog s).pending_ship = s.pending_ship := by
  refine ⟨runWrites_scheduled ws s, runWrites_pending ws s, ?_⟩
  by_cases hj : joinBits s.linebits = []
  · rw [shiplog_of_join_nil hj]
  · rw [shiplog_of_join_ne hj]

/-- C3 counterexample: after `write("")` the fragment list is the non-empty
sequence `[""]`, yet the flush is a no-op (the emptiness test is on the
JOINED string, not the list), so the list is still non-empty — not cleared —
after the flush returns. -/
theorem C3_counterexample :
    (runWrites [([] : Str)] initState).linebits ≠ [] ∧
      BAConsoleRedirect.shiplog (runWrites [([] : Str)] initState) =
        runWrites [([] : Str)] initState ∧
      (BAConsoleRedirect.shiplog
          (runWrites [([] : Str)] initState)).linebits ≠ [] := by
  refine ⟨by decide, by decide, by decide⟩

/-- C3 (amended): the flush returns as a no-op exactly when the CONCATENATION
of the pending fragments is empty (leaving the fragment list, possibly a
non-empty list of empty strings, in place); when the concatenation is
non-empty it clears the fragment list and ships exactly one line. -/
theorem C3_amended_noop_iff_concatenation_empty (s : RState) :
    (joinBits s.linebits = [] → BAConsoleRedirect.shiplog s = s) ∧
      (joinBits s.linebits ≠ [] →
        (BAConsoleRedirect.shiplog s).linebits = [] ∧
          sinkCalls (BAConsoleRedirect.shiplog s) =
            sinkCalls s ++ [(stripNL (joinBits s.linebits), false)]) := by
  constructor
  · exact fun h => shiplog_of_join_nil h
  · intro h
    rw [shiplog_of_join_ne h]
    exact ⟨rfl, by simp [sinkCalls]⟩

theorem C3_amended_witness :
    BAConsoleRedirect.shiplog initState = initState ∧
      (BAConsoleRedirect.shiplog
          { initState with linebits := [['a']] }).linebits = [] :=
  ⟨(C3_amended_noop_iff_concatenation_empty initState).1 (by decide),
   ((C3_amended_noop_iff_concatenation_empty
      { initState with linebits := [['a']] }).2 (by decide)).1⟩

/-- C4: `write("a"); write("b"); write("c\n")` produces exactly one log-sink
call with line `"abc"`, and `write("x\n"); write("y\n")` produces exactly
two calls, `"x"` then `"y"`, in that order. -/
theorem C4_concrete_sequences :
    sinkCalls (runWrites [['a'], ['b'], ['c', '\n']] initState) =
        [(['a', 'b', 'c'], false)] ∧
      sinkCalls (runWrites [['x', '\n'], ['y', '\n']] initState) =
        [(['x'], false), (['y'], false)] := by
  refine ⟨by decide, by decide⟩

/-- C5: flushing with an empty pending buffer is a safe no-op that never
invokes the log sink, `write("")` adds no log-sink call, and the flush is
idempotent (flushing twice equals flushing once, on any state). -/
theorem C5_empty_flush_noop_idempotent (s : RState) :
    (s.linebits = [] → BAConsoleRedirect.shiplog s = s) ∧
      sinkCalls (BAConsoleRedirect.write [] s) = sinkCalls s ∧
      BAConsoleRedirect.shiplog (BAConsoleRedirect.shiplog s) =
        BAConsoleRedirect.shiplog s := by
  refine ⟨?_, ?_, ?_⟩
  · intro h
    exact shiplog_of_join_nil (by rw [h]; rfl)
  · rw [sinkCalls_write]
    simp [endsWithNL]
  · by_cases hj : joinBits s.linebits = []
    · rw [shiplog_of_join_nil hj, shiplog_of_join_nil hj]
    · rw [shiplog_of_join_ne hj]
      exact shiplog_of_join_nil rfl

theorem C5_witness :
    BAConsoleRedirect.shiplog initState = initState ∧
      sinkCalls (BAConsoleRedirect.write [] initState) =
        sinkCalls initState :=
  ⟨(C5_empty_flush_noop_idempotent initState).1 rfl,
   (C5_empty_flush_noop_idempotent initState).2.1⟩

/-- C6: the line handed to the log sink is the concatenation of all pending
fragments at flush time with exactly one trailing terminator stripped when
the concatenation ends in one (and unchanged otherwise); a concatenation
ending in two terminators ships with exactly one removed, still ending in
one terminator. -/
theorem C6_shipped_line_strips_one_terminator (s : RState)
    (h : joinBits s.linebits ≠ []) :
    sinkCalls (BAConsoleRedirect.shiplog s) =
        sinkCalls s ++ [(stripNL (joinBits s.linebits), false)] ∧
      (endsWithNL (joinBits s.linebits) = true →
        stripNL (joinBits s.linebits) = (joinBits s.linebits).dropLast) ∧
      (endsWithNL (joinBits s.linebits) = false →
        stripNL (joinBits s.linebits) = joinBits s.linebits) ∧
      ∀ p : Str, joinBits s.linebits = p ++ ['\n', '\n'] →
        stripNL (joinBits s.linebits) = p ++ ['\n'] := by
  refine ⟨?_, ?_, ?_, ?_⟩
  · rw [shiplog_of_join_ne h]
    simp [sinkCalls]
  · intro hnl
    simp [stripNL, hnl]
  · intro hnl
    simp [stripNL, hnl]
  · intro p hp
    have hnl : endsWithNL (joinBits s.linebits) = true := by
      rw [hp]
      unfold endsWithNL
      rw [List.getLast?_append_of_ne_nil _ (by simp)]
      rfl
    unfold stripNL
    rw [hnl, if_pos rfl, hp]
    have hsplit : p ++ ['\n', '\n'] = (p ++ ['\n']) ++ ['\n'] := by simp
    rw [hsplit, List.dropLast_concat]

theorem C6_witness :
    sinkCalls (BAConsoleRedirect.shiplog
        { initState with linebits := [['a', '\n', '\n']] }) =
      sinkCalls { initState with linebits := [['a', '\n', '\n']] } ++
        [(stripNL (joinBits [['a', '\n', '\n']]), false)] :=
  (C6_shipped_line_strips_one_terminator
    { initState with linebits := [['a', '\n', '\n']] } (by decide)).1

/-- C7: on every `write`, the passthrough sink receives the text verbatim,
and this passthrough event is the first effect of the call — it precedes the
buffer append and any log-sink call made for this write. -/
theorem C7_passthrough_first_and_verbatim (v : Str) (s : RState) :
    passCalls (BAConsoleRedirect.write v s) = passCalls s ++ [v] ∧
      ∃ rest : List Event,
        (BAConsoleRedirect.write v s).events =
          s.events ++ Event.pass v :: Event.buffered v :: rest := by
  refine ⟨passCalls_write v s, ?_⟩
  cases h : endsWithNL v with
  | true =>
      exact ⟨[Event.sink (stripNL (joinBits s.linebits ++ v)) false],
        by rw [write_of_nl h]⟩
  | false => exact ⟨[Event.sched], by rw [write_of_not h]⟩

/-- C8: every log-sink call ever made, over any sequence of writes and
flush executions from the initial state, carries `to_stdout = False`. -/
theorem C8_sink_never_echoes (ops : List Op) :
    ∀ c ∈ sinkCalls (run ops), c.2 = false := by
  have main : ∀ (l : List Op) (s : RState),
      (∀ c ∈ sinkCalls s, c.2 = false) →
      ∀ c ∈ sinkCalls (l.foldl applyOp s), c.2 = false := by
    intro l
    induction l with
    | nil => intro s hs; simpa using hs
    | cons op rest ih =>
        intro s hs
        simp only [List.foldl_cons]
        apply ih
        cases op with
        | write v => exact sinkSnd_write hs v
        | ship => exact sinkSnd_ship hs
        | flushOp => exact hs
  exact main ops initState (by simp [sinkCalls, initState])

theorem C8_witness : ((['x'] : Str), false).2 = false :=
  C8_sink_never_echoes [Op.write ['x', '\n']] (['x'], false) (by decide)

/-- C9: the interceptor's `flush` only forwards to the underlying real
stream's flush, leaving the fragment buffer, the flag, the schedule count
and the whole event trace unchanged, and `isatty` returns exactly the
underlying stream's isatty result. -/
theorem C9_flush_isatty_delegation (s : RState) :
    (BAConsoleRedirect.flush s).linebits = s.linebits ∧
      (BAConsoleRedirect.flush s).pending_ship = s.pending_ship ∧
      (BAConsoleRedirect.flush s).scheduled = s.scheduled ∧
      (BAConsoleRedirect.flush s).events = s.events ∧
      (BAConsoleRedirect.flush s).orig.flushCount = s.orig.flushCount + 1 ∧
      (BAConsoleRedirect.flush s).orig.isattyVal = s.orig.isattyVal ∧
      BAConsoleRedirect.isatty s = s.orig.isattyVal :=
  ⟨rfl, rfl, rfl, rfl, rfl, rfl, rfl⟩

/-- C10: calling `write` with a value lacking an `endswith` method raises
only after the passthrough callback has been invoked with that value and
after the value has been appended to the fragment buffer: the error state
carries both mutations, while the log sink and the schedule count are
untouched. -/
theorem C10_write_nonstring_mutates_before_error (sval : PyVal) (s : AState)
    (h : hasEndswith sval = false) :
    ∃ e : AState, writeAny sval s = Except.error e ∧
      e.passed = s.passed ++ [sval] ∧
      e.linebits = s.linebits ++ [sval] ∧
      e.sinkCalls = s.sinkCalls ∧
      e.scheduled = s.scheduled := by
  cases sval with
  | str v => simp [hasEndswith] at h
  | other t => exact ⟨_, rfl, rfl, rfl, rfl, rfl⟩

theorem C10_witness :
    ∃ e : AState, writeAny (PyVal.other 0) initAState = Except.error e ∧
      e.passed = initAState.passed ++ [PyVal.other 0] ∧
      e.linebits = initAState.linebits ++ [PyVal.other 0] ∧
      e.sinkCalls = initAState.sinkCalls ∧
      e.scheduled = initAState.scheduled :=
  C10_write_nonstring_mutates_before_error (PyVal.other 0) initAState
    (by decide)
